import Mathlib

/- Verification of the dataset-preparation scripts.

   Shallow embedding of scripts/labelme_to_yolo.py and scripts/rename_images.py:
   Python strings are lists of characters, floats are rationals, dictionaries are
   lookup functions, filesystem directories are lists of file names, and a raised
   Python exception is the error case of Except. -/

abbrev FName := List Char

deriving instance DecidableEq for Except

/- ### Characters: ASCII case folding (str.lower) -/

def lowerChar (c : Char) : Char :=
  if 65 ≤ c.toNat ∧ c.toNat ≤ 90 then Char.ofNat (c.toNat + 32) else c

def lowerName (n : FName) : FName := n.map lowerChar

def notDot (c : Char) : Bool := c != '.'

/- ### pathlib.PurePath.suffix: the final dotted extension of a file name.
   suffix = name[i:] where i is the index of the last dot, provided 0 < i < len-1;
   otherwise the empty string. -/

def sfx (name : FName) : FName :=
  let k := (name.reverse.takeWhile notDot).length
  if k = name.length then []
  else if k = 0 then []
  else if name.length - 1 - k = 0 then []
  else name.drop (name.length - 1 - k)

/- ### str.strip (whitespace trimming) -/

def isWS (c : Char) : Bool := (c == ' ') || (c == '\t') || (c == '\n') || (c == '\r')

def stripName (n : FName) : FName :=
  ((n.dropWhile isWS).reverse.dropWhile isWS).reverse

/- ### rename_images.py: extension allow-list normalization (main, line 58):
   exts = [e.lower() if e.startswith('.') else ('.' + e.lower())
           for e in [x.strip() for x in args.exts.split(',') if x.strip()]] -/

def normalizeExts (raw : List FName) : List FName :=
  ((raw.map stripName).filter (fun x => !x.isEmpty)).map
    (fun e => if e.head? = some '.' then lowerName e else '.' :: lowerName e)

/- ### rename_images.py collect_files: filter by suffix allow-list, then sort
   by lowercased name or by mtime. -/

def nameLeB : FName → FName → Bool
  | [], _ => true
  | _ :: _, [] => false
  | a :: as, b :: bs => if a.toNat = b.toNat then nameLeB as bs else decide (a.toNat < b.toNat)

def collect_files (contents : List FName) (mt : FName → ℕ) (exts : List FName)
    (byName : Bool) : List FName :=
  let files := contents.filter (fun p => decide (lowerName (sfx p) ∈ exts))
  if byName then
    List.insertionSort (fun a b => nameLeB (lowerName a) (lowerName b) = true) files
  else
    List.insertionSort (fun a b => mt a ≤ mt b) files

/- ### Zero-padded decimal formatting f"{i:0{padding}d}" for a natural i -/

def natDigitsRev : ℕ → ℕ → List ℕ
  | 0, _ => []
  | fuel + 1, n => if n = 0 then [] else n % 10 :: natDigitsRev fuel (n / 10)

def decimalDigitsRev (n : ℕ) : List ℕ := natDigitsRev n n

def padDigits (w i : ℕ) : List ℕ :=
  let ds := if i = 0 then [0] else (decimalDigitsRev i).reverse
  List.replicate (w - ds.length) 0 ++ ds

def digitCharOf (d : ℕ) : Char := Char.ofNat (48 + d)

def padChars (w i : ℕ) : List Char := (padDigits w i).map digitCharOf

/- ### rename_images.py main: the rename mapping (lines 72-79).
   for i, p in enumerate(files, start=start):
       mapping[p] = folder / (f"{i:0{padding}d}" + p.suffix.lower()) -/

def buildMapping : List FName → ℕ → ℕ → List (FName × FName)
  | [], _, _ => []
  | f :: fs, i, w => (f, padChars w i ++ lowerName (sfx f)) :: buildMapping fs (i + 1) w

/- ### rename_images.py main: collision check (line 82).
   existing_non_sources =
     [p for p in folder.iterdir() if p.is_file() and p not in files and p in targets] -/

def ensOf (contents files targets : List FName) : List FName :=
  contents.filter (fun p => decide (p ∉ files) && decide (p ∈ targets))

/- ### rename_images.py main: overall control flow as a state machine outcome.
   The filesystem after the run is the second component. -/

inductive Outcome where
  | invalidDir : Outcome
  | noFiles : Outcome
  | capacityError : Outcome
  | collisionError : List FName → Outcome
  | dryRunReport : List (FName × FName) → ℕ → Outcome
  | renamed : List (FName × FName) → ℕ → Outcome
  deriving DecidableEq

def exitCode : Outcome → ℕ
  | .invalidDir => 2
  | .noFiles => 0
  | .capacityError => 3
  | .collisionError _ => 4
  | .dryRunReport _ _ => 0
  | .renamed _ _ => 0

/- Net effect of the two-phase (temp then final) rename on the directory listing:
   sources disappear, targets appear, everything else is untouched. -/

def applyRenames (contents files targets : List FName) : List FName :=
  contents.filter (fun p => decide (p ∉ files)) ++ targets

def filesOf (contents : List FName) (mt : FName → ℕ) (rawExts : List FName)
    (byName : Bool) : List FName :=
  collect_files contents mt (normalizeExts rawExts) byName

def mappingOf (contents : List FName) (mt : FName → ℕ) (rawExts : List FName)
    (byName : Bool) (start w : ℕ) : List (FName × FName) :=
  buildMapping (filesOf contents mt rawExts byName) start w

def targetsOf (contents : List FName) (mt : FName → ℕ) (rawExts : List FName)
    (byName : Bool) (start w : ℕ) : List FName :=
  (mappingOf contents mt rawExts byName start w).map Prod.snd

def ensOfRun (contents : List FName) (mt : FName → ℕ) (rawExts : List FName)
    (byName : Bool) (start w : ℕ) : List FName :=
  ensOf contents (filesOf contents mt rawExts byName)
    (targetsOf contents mt rawExts byName start w)

def mainRun (dirExists dirIsDir : Bool) (contents : List FName) (mt : FName → ℕ)
    (rawExts : List FName) (byName : Bool) (start w : ℕ) (dry force : Bool) :
    Outcome × List FName :=
  if !dirExists then (.invalidDir, contents)
  else if !dirIsDir then (.invalidDir, contents)
  else if (filesOf contents mt rawExts byName).isEmpty then (.noFiles, contents)
  else if start + (filesOf contents mt rawExts byName).length - 1 > 10 ^ w - 1 && !force then
    (.capacityError, contents)
  else if !(ensOfRun contents mt rawExts byName start w).isEmpty then
    (.collisionError (ensOfRun contents mt rawExts byName start w), contents)
  else if dry then
    (.dryRunReport (mappingOf contents mt rawExts byName start w)
      (filesOf contents mt rawExts byName).length, contents)
  else
    (.renamed (mappingOf contents mt rawExts byName start w)
      (filesOf contents mt rawExts byName).length,
      applyRenames contents (filesOf contents mt rawExts byName)
        (targetsOf contents mt rawExts byName start w))

/- ## labelme_to_yolo.py -/

inductive PyErr where
  | keyError : PyErr
  | indexError : PyErr
  deriving DecidableEq

structure LShape where
  shape_type : Option FName
  label : Option FName
  points : Option (List (ℚ × ℚ))
  deriving DecidableEq

structure YoloBox where
  cid : ℕ
  xc : ℚ
  yc : ℚ
  bw : ℚ
  bh : ℚ
  deriving DecidableEq

/- convert_shape_to_yolo (lines 38-52): a missing dictionary key raises KeyError,
   a missing list index raises IndexError; both are modelled as Except.error. -/

def convert_shape_to_yolo (shape : LShape) (img_w img_h : ℕ)
    (cmap : FName → Option ℕ) : Except PyErr (Option YoloBox) :=
  if shape.shape_type ≠ some ("rectangle".toList) then .ok none
  else match shape.label with
  | none => .error .keyError
  | some label => match shape.points with
    | none => .error .keyError
    | some pts => match pts[0]? with
      | none => .error .indexError
      | some (x1, y1) => match pts[1]? with
        | none => .error .indexError
        | some (x2, y2) =>
          let x_min := min x1 x2
          let x_max := max x1 x2
          let y_min := min y1 y2
          let y_max := max y1 y2
          let x_c := (x_min + x_max) / 2 / (img_w : ℚ)
          let y_c := (y_min + y_max) / 2 / (img_h : ℚ)
          let bw := (x_max - x_min) / (img_w : ℚ)
          let bh := (y_max - y_min) / (img_h : ℚ)
          match cmap label with
          | none => .error .keyError
          | some class_id => .ok (some ⟨class_id, x_c, y_c, bw, bh⟩)

/- The 6-decimal formatting "{v:.6f}" of each coordinate, as the rational value
   it denotes: rounding to the nearest multiple of 10^-6. -/

def round6 (q : ℚ) : ℚ := ((round (q * 1000000) : ℤ) : ℚ) / 1000000

def formatBox (b : YoloBox) : YoloBox :=
  ⟨b.cid, round6 b.xc, round6 b.yc, round6 b.bw, round6 b.bh⟩

/- ### Image resolution (process_one, lines 57-60) -/

inductive ImgEntry where
  | absent : ImgEntry
  | unreadable : ImgEntry
  | image : ℕ → ℕ → ImgEntry
  deriving DecidableEq

def srcImgDir : FName := "cat_image".toList

def stripBS : FName → FName
  | '.' :: '.' :: '\\' :: rest => stripBS rest
  | c :: rest => c :: stripBS rest
  | [] => []

def stripDS : FName → FName
  | '.' :: '.' :: '/' :: '/' :: rest => stripDS rest
  | c :: rest => c :: stripDS rest
  | [] => []

def baseName (n : FName) : FName := (n.reverse.takeWhile (fun c => c != '/')).reverse

def resolveImg (ip : FName) : FName :=
  let rel := stripDS (stripBS ip)
  if rel.head? = some '/' then rel else srcImgDir ++ '/' :: baseName rel

structure AnnRecord where
  fname : FName
  imagePath : Option FName
  shapes : List LShape
  deriving DecidableEq

/- The shape loop of process_one (lines 68-72): lines accumulate in order,
   an exception propagates. -/

def convertShapes (iw ih : ℕ) (cmap : FName → Option ℕ) :
    List LShape → Except PyErr (List YoloBox)
  | [] => .ok []
  | s :: rest =>
    match convert_shape_to_yolo s iw ih cmap with
    | .error e => .error e
    | .ok none => convertShapes iw ih cmap rest
    | .ok (some b) =>
      match convertShapes iw ih cmap rest with
      | .error e => .error e
      | .ok bs => .ok (b :: bs)

/- process_one (lines 54-73): returns either a record-level error message (inl)
   or the resolved image path with the converted boxes (inr). -/

def process_one (r : AnnRecord) (fs : FName → ImgEntry) (cmap : FName → Option ℕ) :
    Except PyErr (Sum FName (FName × List YoloBox)) :=
  match r.imagePath with
  | none => .error .keyError
  | some ip =>
    let img_path := resolveImg ip
    match fs img_path with
    | .absent => .ok (.inl (("Image not found: ".toList) ++ img_path))
    | .unreadable => .ok (.inl (("Failed to open image ".toList) ++ img_path))
    | .image iw ih =>
      match convertShapes iw ih cmap r.shapes with
      | .error e => .error e
      | .ok boxes => .ok (.inr (img_path, boxes))

/- find_classes (lines 28-36): the set of labels of all shapes, sorted. -/

def allLabels : List AnnRecord → List FName
  | [] => []
  | r :: rs => r.shapes.filterMap (fun s => s.label) ++ allLabels rs

def find_classes (records : List AnnRecord) : List FName :=
  List.insertionSort (fun a b : FName => nameLeB a b = true) (allLabels records).dedup

/- class_map = {name: i for i, name in enumerate(classes)} (line 83) -/

def classMapOf (classes : List FName) (s : FName) : Option ℕ :=
  List.indexOf? s classes

/- ### Split computation (main, lines 86-94).

   The script computes n_train = int(n * TRAIN_RATIO) and n_val =
   int(n * VAL_RATIO) with the constants 0.7 and 0.2 stored as IEEE binary64
   doubles.  The doubles nearest 0.7 and 0.2 are exactly
   3152519739159347 / 2^52 and 3602879701896397 / 2^54, so the Python product
   n * ratio is the exact integer product below rounded once to 53 significant
   bits (round to nearest, ties to even), and int() truncates the result.
   float(n) is exact for n < 2^53; exponent overflow and subnormals are out of
   range for this computation and are not modelled. -/

def TRAIN_NUM : ℕ := 3152519739159347

def VAL_NUM : ℕ := 3602879701896397

def bitlenFuel : ℕ → ℕ → ℕ
  | 0, _ => 0
  | fuel + 1, n => if n = 0 then 0 else bitlenFuel fuel (n / 2) + 1

def bitlen (n : ℕ) : ℕ := bitlenFuel n n

def rndHalfEven (nn d : ℕ) : ℕ :=
  let q := nn / d
  let r := nn % d
  if 2 * r < d then q
  else if d < 2 * r then q + 1
  else if q % 2 = 0 then q else q + 1

/- Round N / 2^k to 53 significant bits (round to nearest, ties to even);
   the result (m, s) denotes the value m * 2^s / 2^k. -/

def fl53 (N : ℕ) : ℕ × ℕ :=
  if bitlen N ≤ 53 then (N, 0)
  else (rndHalfEven N (2 ^ (bitlen N - 53)), bitlen N - 53)

def nTrainOf (n : ℕ) : ℕ :=
  (fl53 (n * TRAIN_NUM)).1 * 2 ^ (fl53 (n * TRAIN_NUM)).2 / 2 ^ 52

def nValOf (n : ℕ) : ℕ :=
  (fl53 (n * VAL_NUM)).1 * 2 ^ (fl53 (n * VAL_NUM)).2 / 2 ^ 54

def splitSlices (indices : List ℕ) : List ℕ × List ℕ × List ℕ :=
  (indices.take (nTrainOf indices.length),
    (indices.drop (nTrainOf indices.length)).take (nValOf indices.length),
    indices.drop (nTrainOf indices.length + nValOf indices.length))

/- ### The conversion loop of main (lines 96-118), without the file writes -/

structure ConvStats where
  train : ℕ
  val : ℕ
  test : ℕ
  skipped : ℕ
  errors : List FName
  deriving DecidableEq

def initStats : ConvStats := ⟨0, 0, 0, 0, []⟩

def convertGo (fs : FName → ImgEntry) (cmap : FName → Option ℕ)
    (tIdx vIdx : List ℕ) : ℕ → List AnnRecord → ConvStats → Except PyErr ConvStats
  | _, [], s => .ok s
  | i, r :: rs, s =>
    match process_one r fs cmap with
    | .error e => .error e
    | .ok (.inl msg) =>
      convertGo fs cmap tIdx vIdx (i + 1) rs
        { s with skipped := s.skipped + 1,
                 errors := s.errors ++ [r.fname ++ (": ".toList) ++ msg] }
    | .ok (.inr _) =>
      if i ∈ tIdx then
        convertGo fs cmap tIdx vIdx (i + 1) rs { s with train := s.train + 1 }
      else if i ∈ vIdx then
        convertGo fs cmap tIdx vIdx (i + 1) rs { s with val := s.val + 1 }
      else
        convertGo fs cmap tIdx vIdx (i + 1) rs { s with test := s.test + 1 }

def convertAll (records : List AnnRecord) (fs : FName → ImgEntry)
    (cmap : FName → Option ℕ) (tIdx vIdx : List ℕ) : Except PyErr ConvStats :=
  convertGo fs cmap tIdx vIdx 0 records initStats

def mainConvert (records : List AnnRecord) (fs : FName → ImgEntry)
    (indices : List ℕ) : Except PyErr ConvStats :=
  convertAll records fs (classMapOf (find_classes records))
    (splitSlices indices).1 (splitSlices indices).2.1

/- ### Error summary (main, lines 130-135): first 10 entries, rest as a count -/

def errorsShown (s : ConvStats) : List FName := s.errors.take 10

def errorsMore (s : ConvStats) : Option ℕ :=
  if 10 < s.errors.length then some (s.errors.length - 10) else none

/- Whether the record's referenced image is missing or unreadable. -/

def imgBad (fs : FName → ImgEntry) (r : AnnRecord) : Bool :=
  match r.imagePath with
  | none => false
  | some ip =>
    match fs (resolveImg ip) with
    | .image _ _ => false
    | _ => true

def recErrMsg (fs : FName → ImgEntry) (cmap : FName → Option ℕ)
    (r : AnnRecord) : Option FName :=
  match process_one r fs cmap with
  | .ok (.inl msg) => some (r.fname ++ (": ".toList) ++ msg)
  | _ => none

def exOk {ε α : Type} : Except ε α → Bool
  | .ok _ => true
  | .error _ => false

/- ## Helper lemmas: characters -/

theorem char_toNat_inj {c d : Char} (h : c.toNat = d.toNat) : c = d :=
  Char.eq_of_val_eq (UInt32.eq_of_toBitVec_eq (BitVec.eq_of_toNat_eq h))

theorem toNat_lowerChar (c : Char) :
    (lowerChar c).toNat = if 65 ≤ c.toNat ∧ c.toNat ≤ 90 then c.toNat + 32 else c.toNat := by
  unfold lowerChar
  split
  · next h =>
    have hv : (c.toNat + 32).isValidChar := by
      left
      have : c.toNat ≤ 90 := h.2
      omega
    show (Char.ofNat (c.toNat + 32)).toNat = _
    unfold Char.ofNat
    rw [dif_pos hv]
    rfl
  · rfl

theorem lowerChar_idem (c : Char) : lowerChar (lowerChar c) = lowerChar c := by
  have h1 := toNat_lowerChar c
  have h2 := toNat_lowerChar (lowerChar c)
  apply char_toNat_inj
  split at h1
  · next h =>
    rw [h1] at h2
    rw [if_neg (by omega)] at h2
    exact h2.trans h1.symm
  · next h =>
    rw [h1] at h2
    rw [if_neg h] at h2
    exact h2.trans h1.symm

theorem lowerName_idem (n : FName) : lowerName (lowerName n) = lowerName n := by
  unfold lowerName
  rw [List.map_map]
  exact List.map_congr_left (fun c _ => lowerChar_idem c)

theorem lowerChar_ne_dot {c : Char} (h : c ≠ '.') : lowerChar c ≠ '.' := by
  intro hc
  apply h
  have h1 := toNat_lowerChar c
  rw [hc] at h1
  have hd : ('.' : Char).toNat = 46 := by decide
  rw [hd] at h1
  split at h1
  · omega
  · exact char_toNat_inj h1.symm

theorem lowerChar_dot : lowerChar '.' = '.' := by decide

/- ## Helper lemmas: decimal digits and zero padding -/

theorem digitCharOf_toNat : ∀ d, d < 10 → (digitCharOf d).toNat = 48 + d := by decide

theorem digitCharOf_ne_dot : ∀ d, d < 10 → digitCharOf d ≠ '.' := by decide

theorem ofDigits_replicate_zero (k : ℕ) : Nat.ofDigits 10 (List.replicate k 0) = 0 := by
  induction k with
  | zero => simp [Nat.ofDigits]
  | succ n ih => simp [List.replicate_succ, Nat.ofDigits, ih]

theorem ofDigits_natDigitsRev : ∀ fuel n : ℕ, n ≤ fuel →
    Nat.ofDigits 10 (natDigitsRev fuel n) = n := by
  intro fuel
  induction fuel with
  | zero =>
    intro n hn
    have : n = 0 := Nat.le_zero.mp hn
    subst this
    simp [natDigitsRev, Nat.ofDigits]
  | succ fuel ih =>
    intro n hn
    unfold natDigitsRev
    split
    · next h => subst h; simp [Nat.ofDigits]
    · next h =>
      rw [Nat.ofDigits_cons]
      have hdiv : n / 10 ≤ fuel := by
        have := Nat.div_lt_self (Nat.pos_of_ne_zero h) (by norm_num : 1 < 10)
        omega
      rw [ih (n / 10) hdiv]
      omega

theorem natDigitsRev_lt : ∀ fuel n d : ℕ, d ∈ natDigitsRev fuel n → d < 10 := by
  intro fuel
  induction fuel with
  | zero => intro n d hd; simp [natDigitsRev] at hd
  | succ fuel ih =>
    intro n d hd
    unfold natDigitsRev at hd
    split at hd
    · simp at hd
    · rcases List.mem_cons.mp hd with h | h
      · subst h; exact Nat.mod_lt _ (by norm_num)
      · exact ih _ _ h

theorem decimalDigitsRev_ne_nil {i : ℕ} (h : i ≠ 0) : decimalDigitsRev i ≠ [] := by
  unfold decimalDigitsRev
  cases hi : i with
  | zero => exact absurd hi h
  | succ m =>
    unfold natDigitsRev
    rw [if_neg (by omega)]
    exact List.cons_ne_nil _ _

theorem padDigits_val (w i : ℕ) : Nat.ofDigits 10 (padDigits w i).reverse = i := by
  unfold padDigits
  split
  · next h =>
    subst h
    simp [Nat.ofDigits_append, ofDigits_replicate_zero, Nat.ofDigits]
  · next h =>
    simp only [List.reverse_append, List.reverse_replicate, List.reverse_reverse]
    rw [Nat.ofDigits_append, ofDigits_replicate_zero]
    simp [ofDigits_natDigitsRev i i (le_refl i), decimalDigitsRev]

theorem padDigits_inj {w i j : ℕ} (h : padDigits w i = padDigits w j) : i = j := by
  have hi := padDigits_val w i
  have hj := padDigits_val w j
  rw [h] at hi
  omega

theorem padDigits_lt (w i : ℕ) : ∀ d ∈ padDigits w i, d < 10 := by
  intro d hd
  unfold padDigits at hd
  rcases List.mem_append.mp hd with h | h
  · have := List.eq_of_mem_replicate h
    omega
  · split at h
    · simp at h; omega
    · exact natDigitsRev_lt i i d (List.mem_reverse.mp h)

theorem padDigits_ne_nil (w i : ℕ) : padDigits w i ≠ [] := by
  unfold padDigits
  split
  · simp
  · next h =>
    intro hc
    have := List.append_eq_nil.mp hc
    exact decimalDigitsRev_ne_nil h (List.reverse_eq_nil_iff.mp this.2)

theorem padChars_ne_nil (w i : ℕ) : padChars w i ≠ [] := by
  unfold padChars
  intro h
  exact padDigits_ne_nil w i (List.map_eq_nil_iff.mp h)

theorem padChars_ne_dot (w i : ℕ) : ∀ c ∈ padChars w i, c ≠ '.' := by
  intro c hc
  unfold padChars at hc
  obtain ⟨d, hd, rfl⟩ := List.mem_map.mp hc
  exact digitCharOf_ne_dot d (padDigits_lt w i d hd)

theorem padChars_inj {w i j : ℕ} (h : padChars w i = padChars w j) : i = j := by
  apply @padDigits_inj w
  have hmap : ∀ l : List ℕ, (∀ d ∈ l, d < 10) →
      (l.map digitCharOf).map (fun c => c.toNat - 48) = l := by
    intro l hl
    rw [List.map_map]
    have : ∀ d ∈ l, ((fun c => c.toNat - 48) ∘ digitCharOf) d = id d := by
      intro d hd
      simp [Function.comp, digitCharOf_toNat d (hl d hd)]
    rw [List.map_congr_left this, List.map_id]
  calc padDigits w i
      = ((padDigits w i).map digitCharOf).map (fun c => c.toNat - 48) :=
        (hmap _ (padDigits_lt w i)).symm
    _ = ((padDigits w j).map digitCharOf).map (fun c => c.toNat - 48) := by
        unfold padChars at h; rw [h]
    _ = padDigits w j := hmap _ (padDigits_lt w j)

/- ## Helper lemmas: the suffix function -/

theorem takeWhile_append_cons {p : Char → Bool} (l1 : List Char) (c : Char) (l2 : List Char)
    (h1 : ∀ x ∈ l1, p x = true) (h2 : p c = false) :
    (l1 ++ c :: l2).takeWhile p = l1 := by
  induction l1 with
  | nil => simp [List.takeWhile, h2]
  | cons a t ih =>
    have ha : p a = true := h1 a (List.mem_cons_self a t)
    simp only [List.cons_append, List.takeWhile_cons, ha, if_true]
    rw [ih (fun x hx => h1 x (List.mem_cons_of_mem a hx))]

theorem dropWhile_head_false {p : Char → Bool} :
    ∀ (l : List Char) (d : Char) (dr : List Char), l.dropWhile p = d :: dr → p d = false := by
  intro l
  induction l with
  | nil => intro d dr h; simp [List.dropWhile] at h
  | cons a t ih =>
    intro d dr h
    rw [List.dropWhile_cons] at h
    split at h
    · exact ih d dr h
    · next hpa =>
      have : a = d := (List.cons_eq_cons.mp h).1
      subst this
      exact Bool.not_eq_true _ ▸ (by simpa using hpa)

theorem sfx_pad_ext (pad rest : List Char) (hpad : pad ≠ []) (_hpd : ∀ c ∈ pad, c ≠ '.')
    (hr : rest ≠ []) (hrd : ∀ c ∈ rest, c ≠ '.') :
    sfx (pad ++ '.' :: rest) = '.' :: rest := by
  unfold sfx
  have hrev : (pad ++ '.' :: rest).reverse = rest.reverse ++ '.' :: pad.reverse := by
    simp
  rw [hrev]
  rw [takeWhile_append_cons rest.reverse '.' pad.reverse
    (fun x hx => by
      have := hrd x (List.mem_reverse.mp hx)
      simpa [notDot] using this)
    (by simp [notDot])]
  have hlen : (pad ++ '.' :: rest).length = pad.length + 1 + rest.length := by
    simp
    omega
  have hrl : rest.reverse.length = rest.length := by simp
  rw [hrl, hlen]
  have hrn : rest.length ≠ 0 := fun h => hr (List.eq_nil_of_length_eq_zero h)
  have hpn : pad.length ≠ 0 := fun h => hpad (List.eq_nil_of_length_eq_zero h)
  rw [if_neg (by omega), if_neg (by omega), if_neg (by omega)]
  have : pad.length + 1 + rest.length - 1 - rest.length = pad.length := by omega
  rw [this, List.drop_append_of_le_length (by omega)]
  simp [List.drop_eq_nil_of_le (le_refl pad.length)]

theorem sfx_shape (n : FName) :
    sfx n = [] ∨ ∃ rest, sfx n = '.' :: rest ∧ rest ≠ [] ∧ ∀ c ∈ rest, c ≠ '.' := by
  unfold sfx
  by_cases h1 : (n.reverse.takeWhile notDot).length = n.length
  · left; rw [if_pos h1]
  rw [if_neg h1]
  by_cases h2 : (n.reverse.takeWhile notDot).length = 0
  · left; rw [if_pos h2]
  rw [if_neg h2]
  by_cases h3 : n.length - 1 - (n.reverse.takeWhile notDot).length = 0
  · left; rw [if_pos h3]
  rw [if_neg h3]
  right
  set tk := n.reverse.takeWhile notDot with htk
  have hsplit : tk ++ n.reverse.dropWhile notDot = n.reverse :=
    List.takeWhile_append_dropWhile notDot n.reverse
  have hdr : n.reverse.dropWhile notDot ≠ [] := by
    intro hc
    rw [hc, List.append_nil] at hsplit
    apply h1
    rw [hsplit]
    simp
  obtain ⟨d, dr, hd⟩ := List.exists_cons_of_ne_nil hdr
  have hdot : d = '.' := by
    have := @dropWhile_head_false notDot n.reverse d dr hd
    simp [notDot] at this
    exact this
  subst hdot
  have hn : n = dr.reverse ++ '.' :: tk.reverse := by
    have : n.reverse = tk ++ '.' :: dr := by rw [← hd, hsplit]
    calc n = n.reverse.reverse := (List.reverse_reverse n).symm
      _ = (tk ++ '.' :: dr).reverse := by rw [this]
      _ = dr.reverse ++ '.' :: tk.reverse := by simp
  have hlen : n.length = dr.length + 1 + tk.length := by
    rw [hn]
    simp
    omega
  have hidx : n.length - 1 - tk.length = dr.length := by omega
  refine ⟨tk.reverse, ?_, ?_, ?_⟩
  · rw [hidx, hn, List.drop_append_of_le_length (by simp)]
    simp [List.drop_eq_nil_of_le (le_refl dr.reverse.length)]
  · intro hc
    apply h2
    have : tk = [] := by simpa using congrArg List.reverse hc
    rw [this]
    rfl
  · intro c hc
    have hmem : c ∈ tk := List.mem_reverse.mp hc
    have := List.mem_takeWhile_imp hmem
    simpa [notDot] using this

theorem lowerName_ne_nil {n : FName} (h : n ≠ []) : lowerName n ≠ [] := by
  intro hc
  exact h (List.map_eq_nil_iff.mp hc)

theorem lowerName_dot_cons (rest : List Char) :
    lowerName ('.' :: rest) = '.' :: lowerName rest := by
  simp [lowerName, lowerChar_dot]

/- ## Helper lemmas: the target names of the rename mapping -/

theorem pad_ext_inj (a b s t : List Char) (ha : ∀ c ∈ a, c ≠ '.') (hb : ∀ c ∈ b, c ≠ '.')
    (hs : ∃ s', s = '.' :: s') (ht : ∃ t', t = '.' :: t')
    (h : a ++ s = b ++ t) : a = b ∧ s = t := by
  rcases List.append_eq_append_iff.mp h with ⟨r, hbr, hsr⟩ | ⟨r, har, htr⟩
  · cases r with
    | nil => simp at hbr hsr; exact ⟨hbr.symm ▸ rfl, by simp [hsr]⟩
    | cons c cr =>
      obtain ⟨s', rfl⟩ := hs
      have : c = '.' := by
        have := hsr
        simp [List.cons_eq_cons] at this
        exact this.1.symm
      subst this
      have : ('.' : Char) ∈ b := by
        rw [hbr]; exact List.mem_append_right a (List.mem_cons_self _ _)
      exact absurd rfl (hb '.' this)
  · cases r with
    | nil => simp at har htr; exact ⟨har, by simp [htr]⟩
    | cons c cr =>
      obtain ⟨t', rfl⟩ := ht
      have : c = '.' := by
        have := htr
        simp [List.cons_eq_cons] at this
        exact this.1.symm
      subst this
      have : ('.' : Char) ∈ a := by
        rw [har]; exact List.mem_append_right b (List.mem_cons_self _ _)
      exact absurd rfl (ha '.' this)

theorem normalizeExts_shape (raw : List FName) :
    ∀ e ∈ normalizeExts raw, ∃ tail, e = '.' :: tail := by
  intro e he
  unfold normalizeExts at he
  obtain ⟨e0, _, heq⟩ := List.mem_map.mp he
  subst heq
  split
  · next hh =>
    cases e0 with
    | nil => simp at hh
    | cons c rest =>
      have hc : c = '.' := by simpa using hh
      subst hc
      exact ⟨lowerName rest, lowerName_dot_cons rest⟩
  · exact ⟨lowerName e0, rfl⟩

theorem mem_collect_iff (contents : List FName) (mt : FName → ℕ) (exts : List FName)
    (byName : Bool) (f : FName) :
    f ∈ collect_files contents mt exts byName ↔
      f ∈ contents ∧ lowerName (sfx f) ∈ exts := by
  unfold collect_files
  have key : f ∈ contents.filter (fun p => decide (lowerName (sfx p) ∈ exts)) ↔
      f ∈ contents ∧ lowerName (sfx f) ∈ exts := by
    rw [List.mem_filter]
    simp
  split
  · rw [List.Perm.mem_iff (List.perm_insertionSort _ _)]
    exact key
  · rw [List.Perm.mem_iff (List.perm_insertionSort _ _)]
    exact key

theorem targetSnd_mem : ∀ (files : List FName) (i w : ℕ) (t : FName),
    t ∈ (buildMapping files i w).map Prod.snd →
    ∃ j f, i ≤ j ∧ f ∈ files ∧ t = padChars w j ++ lowerName (sfx f) := by
  intro files
  induction files with
  | nil => intro i w t h; simp [buildMapping] at h
  | cons f fs ih =>
    intro i w t h
    simp only [buildMapping, List.map_cons, List.mem_cons] at h
    rcases h with h | h
    · exact ⟨i, f, le_refl i, List.mem_cons_self f fs, h⟩
    · obtain ⟨j, g, hj, hg, ht⟩ := ih (i + 1) w t h
      exact ⟨j, g, by omega, List.mem_cons_of_mem f hg, ht⟩

theorem buildMapping_fst : ∀ (files : List FName) (i w : ℕ),
    (buildMapping files i w).map Prod.fst = files := by
  intro files
  induction files with
  | nil => intro i w; rfl
  | cons f fs ih =>
    intro i w
    simp [buildMapping, ih (i + 1) w]

theorem targets_nodup : ∀ (files : List FName) (i w : ℕ),
    (∀ f ∈ files, ∃ tl, lowerName (sfx f) = '.' :: tl) →
    ((buildMapping files i w).map Prod.snd).Nodup := by
  intro files
  induction files with
  | nil => intro i w _; simp [buildMapping]
  | cons f fs ih =>
    intro i w hdot
    simp only [buildMapping, List.map_cons]
    refine List.Nodup.cons ?_ (ih (i + 1) w (fun g hg => hdot g (List.mem_cons_of_mem f hg)))
    intro hmem
    obtain ⟨j, g, hj, hg, ht⟩ := targetSnd_mem fs (i + 1) w _ hmem
    have := pad_ext_inj (padChars w j) (padChars w i)
      (lowerName (sfx g)) (lowerName (sfx f))
      (padChars_ne_dot w j) (padChars_ne_dot w i)
      (hdot g (List.mem_cons_of_mem f hg)) (hdot f (List.mem_cons_self f fs)) ht.symm
    have hij : j = i := padChars_inj this.1
    omega

/- Any file whose name is a computed target name has an allow-listed suffix,
   hence is itself one of the collected source files: the collision check of
   rename_images.py main (line 82) can never fire. -/

theorem target_suffix (contents : List FName) (mt : FName → ℕ) (raw : List FName)
    (byName : Bool) (start w : ℕ) (t : FName)
    (ht : t ∈ targetsOf contents mt raw byName start w) :
    lowerName (sfx t) ∈ normalizeExts raw := by
  obtain ⟨j, f, _, hf, rfl⟩ := targetSnd_mem _ start w t ht
  have hfext : lowerName (sfx f) ∈ normalizeExts raw :=
    ((mem_collect_iff contents mt (normalizeExts raw) byName f).mp hf).2
  rcases sfx_shape f with hnil | ⟨rest, hrest, hrne, hrd⟩
  · exfalso
    obtain ⟨tail, htail⟩ := normalizeExts_shape raw _ hfext
    rw [hnil] at htail
    exact List.noConfusion htail
  · rw [hrest]
    rw [lowerName_dot_cons]
    have hsfx : sfx (padChars w j ++ '.' :: lowerName rest) = '.' :: lowerName rest :=
      sfx_pad_ext (padChars w j) (lowerName rest) (padChars_ne_nil w j)
        (padChars_ne_dot w j) (lowerName_ne_nil hrne)
        (fun c hc => by
          obtain ⟨c0, hc0, rfl⟩ := List.mem_map.mp hc
          exact lowerChar_ne_dot (hrd c0 hc0))
    rw [hsfx, lowerName_dot_cons, lowerName_idem]
    rw [hrest, lowerName_dot_cons] at hfext
    exact hfext

theorem ensOfRun_eq_nil (contents : List FName) (mt : FName → ℕ) (raw : List FName)
    (byName : Bool) (start w : ℕ) :
    ensOfRun contents mt raw byName start w = [] := by
  unfold ensOfRun ensOf
  rw [List.filter_eq_nil_iff]
  intro p hp
  rw [Bool.and_eq_true, decide_eq_true_eq, decide_eq_true_eq]
  intro ⟨hnotin, hintgt⟩
  apply hnotin
  unfold filesOf
  rw [mem_collect_iff]
  exact ⟨hp, target_suffix contents mt raw byName start w p hintgt⟩

/- ## Helper lemmas: the code-point lexicographic order used for sorting -/

theorem nameLeB_total : ∀ a b : FName, nameLeB a b = true ∨ nameLeB b a = true := by
  intro a
  induction a with
  | nil => intro b; left; rfl
  | cons x xs ih =>
    intro b
    cases b with
    | nil => right; rfl
    | cons y ys =>
      unfold nameLeB
      by_cases hxy : x.toNat = y.toNat
      · rw [if_pos hxy, if_pos hxy.symm]
        exact ih ys
      · rw [if_neg hxy, if_neg (fun h => hxy h.symm)]
        rcases Nat.lt_or_ge x.toNat y.toNat with h | h
        · left; simpa using h
        · right; simp; omega

theorem nameLeB_trans : ∀ a b c : FName,
    nameLeB a b = true → nameLeB b c = true → nameLeB a c = true := by
  intro a
  induction a with
  | nil => intro b c _ _; rfl
  | cons x xs ih =>
    intro b c hab hbc
    cases b with
    | nil => simp [nameLeB] at hab
    | cons y ys =>
      cases c with
      | nil => simp [nameLeB] at hbc
      | cons z zs =>
        unfold nameLeB at hab hbc ⊢
        by_cases hxy : x.toNat = y.toNat
        · rw [if_pos hxy] at hab
          by_cases hyz : y.toNat = z.toNat
          · rw [if_pos hyz] at hbc
            rw [if_pos (hxy.trans hyz)]
            exact ih ys zs hab hbc
          · rw [if_neg hyz] at hbc
            have hlt : y.toNat < z.toNat := by simpa using hbc
            rw [if_neg (by omega)]
            simp
            omega
        · rw [if_neg hxy] at hab
          have hlt : x.toNat < y.toNat := by simpa using hab
          by_cases hyz : y.toNat = z.toNat
          · rw [if_neg (by omega)]
            simp
            omega
          · rw [if_neg hyz] at hbc
            have hlt2 : y.toNat < z.toNat := by simpa using hbc
            rw [if_neg (by omega)]
            simp
            omega

instance : IsTotal FName (fun a b => nameLeB a b = true) := ⟨nameLeB_total⟩

instance : IsTrans FName (fun a b => nameLeB a b = true) := ⟨nameLeB_trans⟩

instance : IsIrrefl Char (fun c d : Char => c.toNat < d.toNat) := ⟨fun _ => lt_irrefl _⟩

theorem nameLeB_iff_lex : ∀ a b : FName,
    nameLeB a b = true ↔ (a = b ∨ List.Lex (fun c d : Char => c.toNat < d.toNat) a b) := by
  intro a
  induction a with
  | nil =>
    intro b
    cases b with
    | nil => exact ⟨fun _ => Or.inl rfl, fun _ => rfl⟩
    | cons y ys => exact ⟨fun _ => Or.inr List.Lex.nil, fun _ => rfl⟩
  | cons x xs ih =>
    intro b
    cases b with
    | nil =>
      constructor
      · intro h; simp [nameLeB] at h
      · intro h
        rcases h with h | h
        · exact absurd h (List.cons_ne_nil x xs)
        · cases h
    | cons y ys =>
      unfold nameLeB
      by_cases hxy : x.toNat = y.toNat
      · have hc : x = y := char_toNat_inj hxy
        subst hc
        rw [if_pos rfl]
        rw [ih ys]
        constructor
        · intro h
          rcases h with h | h
          · exact Or.inl (by rw [h])
          · exact Or.inr (List.Lex.cons h)
        · intro h
          rcases h with h | h
          · exact Or.inl (List.cons_eq_cons.mp h).2
          · exact Or.inr (List.Lex.cons_iff.mp h)
      · rw [if_neg hxy]
        have hne : x ≠ y := fun h => hxy (by rw [h])
        constructor
        · intro h
          have : x.toNat < y.toNat := by simpa using h
          exact Or.inr (List.Lex.rel this)
        · intro h
          rcases h with h | h
          · exact absurd (List.cons_eq_cons.mp h).1 hne
          · cases h with
            | cons h => exact absurd rfl hne
            | rel h => simpa using h

/- ## Helper lemmas: dictionary built by enumerate (classMapOf) -/

theorem indexOf?_get_of_nodup : ∀ (l : List FName), l.Nodup → ∀ (i : ℕ) (hi : i < l.length),
    List.indexOf? (l.get ⟨i, hi⟩) l = some i := by
  intro l
  induction l with
  | nil => intro _ i hi; simp at hi
  | cons a t ih =>
    intro hnd i hi
    cases i with
    | zero =>
      simp [List.indexOf?, List.findIdx?_cons]
    | succ j =>
      have hj : j < t.length := by simpa using hi
      have hget : (a :: t).get ⟨j + 1, hi⟩ = t.get ⟨j, hj⟩ := rfl
      rw [hget]
      have hmem : t.get ⟨j, hj⟩ ∈ t := List.get_mem t j hj
      have hne : (a == t.get ⟨j, hj⟩) = false := by
        rw [beq_eq_false_iff_ne]
        intro hc
        exact (List.nodup_cons.mp hnd).1 (hc ▸ hmem)
      have ihj := ih (List.nodup_cons.mp hnd).2 j hj
      simp only [List.indexOf?] at ihj ⊢
      rw [List.findIdx?_cons, hne, if_neg (by decide), List.findIdx?_succ, ihj]
      rfl

theorem indexOf?_eq_none_of_not_mem (l : List FName) (s : FName) (h : s ∉ l) :
    List.indexOf? s l = none := by
  unfold List.indexOf?
  rw [List.findIdx?_eq_none_iff]
  intro x hx
  rw [beq_eq_false_iff_ne]
  intro hc
  exact h (hc ▸ hx)

/- ## Helper lemmas: the conversion loop -/

theorem process_inl_imgBad {r : AnnRecord} {fs : FName → ImgEntry}
    {cmap : FName → Option ℕ} {m : FName}
    (h : process_one r fs cmap = .ok (.inl m)) : imgBad fs r = true := by
  unfold process_one at h
  unfold imgBad
  cases hip : r.imagePath with
  | none => simp [hip] at h
  | some ip =>
    rw [hip] at h
    simp only [] at h
    split at h
    · rename_i heq
      simp [heq]
    · rename_i heq
      simp [heq]
    · split at h
      · simp at h
      · simp at h

theorem process_inr_imgBad {r : AnnRecord} {fs : FName → ImgEntry}
    {cmap : FName → Option ℕ} {x : FName × List YoloBox}
    (h : process_one r fs cmap = .ok (.inr x)) : imgBad fs r = false := by
  unfold process_one at h
  unfold imgBad
  cases hip : r.imagePath with
  | none => simp [hip] at h
  | some ip =>
    rw [hip] at h
    simp only [] at h
    split at h
    · simp at h
    · simp at h
    · rename_i iw ih heq
      simp [heq]

theorem convertGo_spec (fs : FName → ImgEntry) (cmap : FName → Option ℕ)
    (tIdx vIdx : List ℕ) :
    ∀ (rs : List AnnRecord) (i : ℕ) (s : ConvStats),
    (∀ r ∈ rs, exOk (process_one r fs cmap) = true) →
    ∃ s2, convertGo fs cmap tIdx vIdx i rs s = .ok s2
      ∧ s2.skipped = s.skipped + (rs.filter (fun r => imgBad fs r)).length
      ∧ s2.errors = s.errors ++ rs.filterMap (recErrMsg fs cmap)
      ∧ s2.train + s2.val + s2.test + s2.skipped
          = s.train + s.val + s.test + s.skipped + rs.length := by
  intro rs
  induction rs with
  | nil =>
    intro i s _
    exact ⟨s, rfl, by simp, by simp, by simp⟩
  | cons r rs ih =>
    intro i s hok
    have hr := hok r (List.mem_cons_self r rs)
    have hrs : ∀ q ∈ rs, exOk (process_one q fs cmap) = true :=
      fun q hq => hok q (List.mem_cons_of_mem r hq)
    cases hp : process_one r fs cmap with
    | error e => rw [hp] at hr; simp [exOk] at hr
    | ok v =>
      cases v with
      | inl m =>
        have hbad : imgBad fs r = true := process_inl_imgBad hp
        have hmsg : recErrMsg fs cmap r = some (r.fname ++ (": ".toList) ++ m) := by
          unfold recErrMsg
          rw [hp]
        obtain ⟨s2, hrun, hsk, herr, hsum⟩ := ih (i + 1)
          { s with skipped := s.skipped + 1,
                   errors := s.errors ++ [r.fname ++ (": ".toList) ++ m] } hrs
        refine ⟨s2, ?_, ?_, ?_, ?_⟩
        · unfold convertGo
          rw [hp]
          exact hrun
        · rw [hsk]
          simp [List.filter_cons, hbad]
          omega
        · rw [herr]
          simp [List.filterMap_cons, hmsg]
        · rw [hsum]
          simp
          omega
      | inr x =>
        have hbad : imgBad fs r = false := process_inr_imgBad hp
        have hmsg : recErrMsg fs cmap r = none := by
          unfold recErrMsg
          rw [hp]
        have hfilter : (r :: rs).filter (fun q => imgBad fs q)
            = rs.filter (fun q => imgBad fs q) := by
          simp [List.filter_cons, hbad]
        have hfm : (r :: rs).filterMap (recErrMsg fs cmap)
            = rs.filterMap (recErrMsg fs cmap) := by
          simp [List.filterMap_cons, hmsg]
        by_cases ht : i ∈ tIdx
        · obtain ⟨s2, hrun, hsk, herr, hsum⟩ := ih (i + 1) { s with train := s.train + 1 } hrs
          refine ⟨s2, ?_, ?_, ?_, ?_⟩
          · unfold convertGo
            rw [hp, if_pos ht]
            exact hrun
          · rw [hsk, hfilter]
          · rw [herr, hfm]
          · rw [hsum]; simp; omega
        · by_cases hv : i ∈ vIdx
          · obtain ⟨s2, hrun, hsk, herr, hsum⟩ := ih (i + 1) { s with val := s.val + 1 } hrs
            refine ⟨s2, ?_, ?_, ?_, ?_⟩
            · unfold convertGo
              rw [hp, if_neg ht, if_pos hv]
              exact hrun
            · rw [hsk, hfilter]
            · rw [herr, hfm]
            · rw [hsum]; simp; omega
          · obtain ⟨s2, hrun, hsk, herr, hsum⟩ := ih (i + 1) { s with test := s.test + 1 } hrs
            refine ⟨s2, ?_, ?_, ?_, ?_⟩
            · unfold convertGo
              rw [hp, if_neg ht, if_neg hv]
              exact hrun
            · rw [hsk, hfilter]
            · rw [herr, hfm]
            · rw [hsum]; simp; omega

/- ## Helper lemmas: 6-decimal rounding -/

theorem round6_err (q : ℚ) : |round6 q - q| ≤ 1 / 2000000 := by
  unfold round6
  have h := abs_sub_round (q * 1000000)
  rw [abs_sub_comm] at h
  have heq : (((round (q * 1000000) : ℤ) : ℚ)) / 1000000 - q
      = ((round (q * 1000000) : ℤ) - q * 1000000) / 1000000 := by ring
  rw [heq, abs_div]
  rw [abs_of_pos (by norm_num : (0 : ℚ) < 1000000)]
  rw [div_le_iff₀ (by norm_num : (0 : ℚ) < 1000000)]
  calc |((round (q * 1000000) : ℤ) : ℚ) - q * 1000000| ≤ 1 / 2 := h
    _ ≤ 1 / 2000000 * 1000000 := by norm_num

theorem denorm_lo (a b C : ℚ) (hC : 0 < C) :
    |(round6 ((a + b) / 2 / C) - round6 ((b - a) / C) / 2) * C - a| ≤ 3 / 4000000 * C := by
  have h1 := round6_err ((a + b) / 2 / C)
  have h2 := round6_err ((b - a) / C)
  have hC0 : C ≠ 0 := ne_of_gt hC
  have key : (round6 ((a + b) / 2 / C) - round6 ((b - a) / C) / 2) * C - a
      = ((round6 ((a + b) / 2 / C) - (a + b) / 2 / C)
          - (round6 ((b - a) / C) - (b - a) / C) / 2) * C := by
    field_simp
    ring
  rw [key, abs_mul, abs_of_pos hC]
  have htri : |(round6 ((a + b) / 2 / C) - (a + b) / 2 / C)
      - (round6 ((b - a) / C) - (b - a) / C) / 2| ≤ 3 / 4000000 := by
    have := abs_sub (round6 ((a + b) / 2 / C) - (a + b) / 2 / C)
      ((round6 ((b - a) / C) - (b - a) / C) / 2)
    have habs2 : |(round6 ((b - a) / C) - (b - a) / C) / 2|
        = |round6 ((b - a) / C) - (b - a) / C| / 2 := by
      rw [abs_div]
      norm_num
    rw [habs2] at this
    linarith
  calc |(round6 ((a + b) / 2 / C) - (a + b) / 2 / C)
        - (round6 ((b - a) / C) - (b - a) / C) / 2| * C
      ≤ 3 / 4000000 * C := mul_le_mul_of_nonneg_right htri (le_of_lt hC)

theorem denorm_hi (a b C : ℚ) (hC : 0 < C) :
    |(round6 ((a + b) / 2 / C) + round6 ((b - a) / C) / 2) * C - b| ≤ 3 / 4000000 * C := by
  have h1 := round6_err ((a + b) / 2 / C)
  have h2 := round6_err ((b - a) / C)
  have hC0 : C ≠ 0 := ne_of_gt hC
  have key : (round6 ((a + b) / 2 / C) + round6 ((b - a) / C) / 2) * C - b
      = ((round6 ((a + b) / 2 / C) - (a + b) / 2 / C)
          + (round6 ((b - a) / C) - (b - a) / C) / 2) * C := by
    field_simp
    ring
  rw [key, abs_mul, abs_of_pos hC]
  have htri : |(round6 ((a + b) / 2 / C) - (a + b) / 2 / C)
      + (round6 ((b - a) / C) - (b - a) / C) / 2| ≤ 3 / 4000000 := by
    have := abs_add (round6 ((a + b) / 2 / C) - (a + b) / 2 / C)
      ((round6 ((b - a) / C) - (b - a) / C) / 2)
    have habs2 : |(round6 ((b - a) / C) - (b - a) / C) / 2|
        = |round6 ((b - a) / C) - (b - a) / C| / 2 := by
      rw [abs_div]
      norm_num
    rw [habs2] at this
    linarith
  calc |(round6 ((a + b) / 2 / C) - (a + b) / 2 / C)
        + (round6 ((b - a) / C) - (b - a) / C) / 2| * C
      ≤ 3 / 4000000 * C := mul_le_mul_of_nonneg_right htri (le_of_lt hC)

/- ## Split-size arithmetic -/

/- The spec's idealized counts: the exact mathematical floor(total * ratio)
   with the real ratios 0.7 = 7/10 and 0.2 = 2/10.  Stated from the spec's
   words, to be compared with the program's floating-point counts. -/

def specTrainFloor (n : ℕ) : ℕ := Nat.floor ((n : ℚ) * (7 / 10))

def specValFloor (n : ℕ) : ℕ := Nat.floor ((n : ℚ) * (2 / 10))

theorem specTrainFloor_eq (n : ℕ) : specTrainFloor n = 7 * n / 10 := by
  unfold specTrainFloor
  have hcast : (n : ℚ) * (7 / 10) = ((7 * n : ℕ) : ℚ) / ((10 : ℕ) : ℚ) := by
    push_cast
    ring
  rw [hcast, Nat.floor_div_nat, Nat.floor_natCast]

theorem specValFloor_eq (n : ℕ) : specValFloor n = 2 * n / 10 := by
  unfold specValFloor
  have hcast : (n : ℚ) * (2 / 10) = ((2 * n : ℕ) : ℚ) / ((10 : ℕ) : ℚ) := by
    push_cast
    ring
  rw [hcast, Nat.floor_div_nat, Nat.floor_natCast]

/- Bounds for the floating-point split counts. -/

theorem bitlenFuel_zero (fuel : ℕ) : bitlenFuel fuel 0 = 0 := by
  cases fuel <;> rfl

theorem bitlenFuel_spec : ∀ fuel n : ℕ, n ≤ fuel →
    n < 2 ^ bitlenFuel fuel n ∧ (1 ≤ n → 2 ^ (bitlenFuel fuel n - 1) ≤ n) := by
  intro fuel
  induction fuel with
  | zero =>
    intro n hn
    have h0 : n = 0 := by omega
    subst h0
    exact ⟨by simp [bitlenFuel], by omega⟩
  | succ fuel ih =>
    intro n hn
    by_cases h0 : n = 0
    · subst h0
      exact ⟨by simp [bitlenFuel], by omega⟩
    · have hrec : bitlenFuel (fuel + 1) n = bitlenFuel fuel (n / 2) + 1 := by
        show (if n = 0 then 0 else bitlenFuel fuel (n / 2) + 1) = _
        rw [if_neg h0]
      have hdiv : n / 2 ≤ fuel := by omega
      obtain ⟨ih1, ih2⟩ := ih (n / 2) hdiv
      rw [hrec]
      constructor
      · have hpow : (2 : ℕ) ^ (bitlenFuel fuel (n / 2) + 1)
            = 2 * 2 ^ bitlenFuel fuel (n / 2) := by
          rw [pow_succ]
          ring
        omega
      · intro _
        by_cases hh : n / 2 = 0
        · have hb0 : bitlenFuel fuel (n / 2) = 0 := by rw [hh, bitlenFuel_zero]
          rw [hb0]
          norm_num
          omega
        · have h1 : 1 ≤ n / 2 := by omega
          have hlow := ih2 h1
          have hbpos : 1 ≤ bitlenFuel fuel (n / 2) := by
            by_contra hb
            have hz : bitlenFuel fuel (n / 2) = 0 := by omega
            rw [hz, pow_zero] at ih1
            omega
          have hpow : (2 : ℕ) ^ (bitlenFuel fuel (n / 2) + 1 - 1)
              = 2 * 2 ^ (bitlenFuel fuel (n / 2) - 1) := by
            have he : bitlenFuel fuel (n / 2) + 1 - 1
                = (bitlenFuel fuel (n / 2) - 1) + 1 := by omega
            rw [he, pow_succ]
            ring
          rw [hpow]
          omega

theorem bitlen_lt (N : ℕ) : N < 2 ^ bitlen N := (bitlenFuel_spec N N le_rfl).1

theorem two_pow_bitlen_le {N : ℕ} (h : 1 ≤ N) : 2 ^ (bitlen N - 1) ≤ N :=
  (bitlenFuel_spec N N le_rfl).2 h

theorem rndHalfEven_mul_le (nn h2 : ℕ) :
    rndHalfEven nn (2 * h2) * (2 * h2) ≤ nn + h2 := by
  by_cases hz : h2 = 0
  · subst hz
    simp [rndHalfEven]
  have hd : 0 < 2 * h2 := by omega
  have hdm := Nat.div_add_mod nn (2 * h2)
  have hr : nn % (2 * h2) < 2 * h2 := Nat.mod_lt _ hd
  simp only [rndHalfEven]
  set q := nn / (2 * h2) with hq
  set r := nn % (2 * h2) with hrdef
  set P := q * (2 * h2) with hP
  have hdm2 : P + r = nn := by
    rw [hP, Nat.mul_comm]
    exact hdm
  have hexp : (q + 1) * (2 * h2) = P + 2 * h2 := by rw [hP]; ring
  split
  · rw [← hP]
    omega
  · split
    · rw [hexp]
      omega
    · split
      · rw [← hP]
        omega
      · rw [hexp]
        omega

theorem fl53_val_le (N : ℕ) :
    (fl53 N).1 * 2 ^ (fl53 N).2 * 2 ^ 53 ≤ N * 2 ^ 53 + N := by
  unfold fl53
  split
  · simp
  · next h =>
    push_neg at h
    have hN1 : 1 ≤ N := by
      by_contra h0
      have hz : N = 0 := by omega
      subst hz
      have hb0 : bitlen 0 = 0 := rfl
      omega
    have hlow := two_pow_bitlen_le hN1
    have hsplit : (2 : ℕ) ^ (bitlen N - 53) = 2 * 2 ^ (bitlen N - 54) := by
      have he : bitlen N - 53 = (bitlen N - 54) + 1 := by omega
      rw [he, pow_succ]
      ring
    have hrnd := rndHalfEven_mul_le N (2 ^ (bitlen N - 54))
    rw [← hsplit] at hrnd
    have h1 : (2 : ℕ) ^ (bitlen N - 54) * 2 ^ 53 ≤ N := by
      rw [← pow_add]
      have he : bitlen N - 54 + 53 = bitlen N - 1 := by omega
      rw [he]
      exact hlow
    calc rndHalfEven N (2 ^ (bitlen N - 53)) * 2 ^ (bitlen N - 53) * 2 ^ 53
        ≤ (N + 2 ^ (bitlen N - 54)) * 2 ^ 53 := mul_le_mul_right' hrnd _
      _ = N * 2 ^ 53 + 2 ^ (bitlen N - 54) * 2 ^ 53 := by ring
      _ ≤ N * 2 ^ 53 + N := Nat.add_le_add_left h1 _

theorem nTrainOf_le (n : ℕ) : nTrainOf n ≤ n := by
  unfold nTrainOf
  have h := fl53_val_le (n * TRAIN_NUM)
  have hc : TRAIN_NUM * (2 ^ 53 + 1) ≤ 2 ^ 52 * 2 ^ 53 := by decide
  have h2 : (fl53 (n * TRAIN_NUM)).1 * 2 ^ (fl53 (n * TRAIN_NUM)).2 * 2 ^ 53
      ≤ n * (TRAIN_NUM * (2 ^ 53 + 1)) := by
    calc (fl53 (n * TRAIN_NUM)).1 * 2 ^ (fl53 (n * TRAIN_NUM)).2 * 2 ^ 53
        ≤ n * TRAIN_NUM * 2 ^ 53 + n * TRAIN_NUM := h
      _ = n * (TRAIN_NUM * (2 ^ 53 + 1)) := by ring
  have h3 : n * (TRAIN_NUM * (2 ^ 53 + 1)) < (n + 1) * 2 ^ 52 * 2 ^ 53 := by
    calc n * (TRAIN_NUM * (2 ^ 53 + 1)) ≤ n * (2 ^ 52 * 2 ^ 53) := mul_le_mul_left' hc n
      _ < (n + 1) * (2 ^ 52 * 2 ^ 53) := by
          exact mul_lt_mul_of_pos_right (by omega) (by positivity)
      _ = (n + 1) * 2 ^ 52 * 2 ^ 53 := by ring
  have key : (fl53 (n * TRAIN_NUM)).1 * 2 ^ (fl53 (n * TRAIN_NUM)).2 < (n + 1) * 2 ^ 52 :=
    lt_of_mul_lt_mul_right (lt_of_le_of_lt h2 h3) (Nat.zero_le _)
  exact Nat.lt_succ_iff.mp ((Nat.div_lt_iff_lt_mul (by positivity)).mpr key)

theorem split_le (n : ℕ) : nTrainOf n + nValOf n ≤ n := by
  unfold nTrainOf nValOf
  set A := (fl53 (n * TRAIN_NUM)).1 * 2 ^ (fl53 (n * TRAIN_NUM)).2 with hA
  set B := (fl53 (n * VAL_NUM)).1 * 2 ^ (fl53 (n * VAL_NUM)).2 with hB
  have hA53 : A * 2 ^ 53 ≤ n * TRAIN_NUM * 2 ^ 53 + n * TRAIN_NUM := fl53_val_le _
  have hB53 : B * 2 ^ 53 ≤ n * VAL_NUM * 2 ^ 53 + n * VAL_NUM := fl53_val_le _
  have hc : (2 ^ 2 * TRAIN_NUM + VAL_NUM) * (2 ^ 53 + 1) ≤ 2 ^ 54 * 2 ^ 53 := by decide
  have hs : A * 2 ^ 2 + B < (n + 1) * 2 ^ 54 := by
    have h2 : (A * 2 ^ 2 + B) * 2 ^ 53
        ≤ n * ((2 ^ 2 * TRAIN_NUM + VAL_NUM) * (2 ^ 53 + 1)) := by
      calc (A * 2 ^ 2 + B) * 2 ^ 53 = A * 2 ^ 53 * 2 ^ 2 + B * 2 ^ 53 := by ring
        _ ≤ (n * TRAIN_NUM * 2 ^ 53 + n * TRAIN_NUM) * 2 ^ 2
            + (n * VAL_NUM * 2 ^ 53 + n * VAL_NUM) :=
            Nat.add_le_add (mul_le_mul_right' hA53 _) hB53
        _ = n * ((2 ^ 2 * TRAIN_NUM + VAL_NUM) * (2 ^ 53 + 1)) := by ring
    have h3 : n * ((2 ^ 2 * TRAIN_NUM + VAL_NUM) * (2 ^ 53 + 1))
        < (n + 1) * 2 ^ 54 * 2 ^ 53 := by
      calc n * ((2 ^ 2 * TRAIN_NUM + VAL_NUM) * (2 ^ 53 + 1))
          ≤ n * (2 ^ 54 * 2 ^ 53) := mul_le_mul_left' hc n
        _ < (n + 1) * (2 ^ 54 * 2 ^ 53) := by
            exact mul_lt_mul_of_pos_right (by omega) (by positivity)
        _ = (n + 1) * 2 ^ 54 * 2 ^ 53 := by ring
    exact lt_of_mul_lt_mul_right (lt_of_le_of_lt h2 h3) (Nat.zero_le _)
  have e1 : A * 2 ^ 2 / 2 ^ 54 = A / 2 ^ 52 := by
    have h54 : (2 : ℕ) ^ 54 = 2 ^ 2 * 2 ^ 52 := by norm_num
    rw [h54, Nat.mul_comm A (2 ^ 2), Nat.mul_div_mul_left A (2 ^ 52) (by norm_num)]
  have e2 : A * 2 ^ 2 / 2 ^ 54 + B / 2 ^ 54 ≤ (A * 2 ^ 2 + B) / 2 ^ 54 := by
    rw [Nat.le_div_iff_mul_le (by positivity : (0 : ℕ) < 2 ^ 54)]
    calc (A * 2 ^ 2 / 2 ^ 54 + B / 2 ^ 54) * 2 ^ 54
        = A * 2 ^ 2 / 2 ^ 54 * 2 ^ 54 + B / 2 ^ 54 * 2 ^ 54 := by ring
      _ ≤ A * 2 ^ 2 + B := Nat.add_le_add (Nat.div_mul_le_self _ _) (Nat.div_mul_le_self _ _)
  have e3 : (A * 2 ^ 2 + B) / 2 ^ 54 ≤ n :=
    Nat.lt_succ_iff.mp ((Nat.div_lt_iff_lt_mul (by positivity)).mpr hs)
  calc A / 2 ^ 52 + B / 2 ^ 54 = A * 2 ^ 2 / 2 ^ 54 + B / 2 ^ 54 := by rw [e1]
    _ ≤ (A * 2 ^ 2 + B) / 2 ^ 54 := e2
    _ ≤ n := e3

set_option maxRecDepth 20000 in
/-- Counterexample to claim C2 as stated: at 170 records the program computes
int(170 * 0.7) = 118 in IEEE binary64 arithmetic, one less than the claimed
floor(170 * 0.7) = 119, so the train split does not have
floor(total*train_ratio) records. -/
theorem claim_C2_counterexample :
    (List.range 170).Perm (List.range 170) ∧
    (splitSlices (List.range 170)).1.toFinset.card = 118 ∧
    specTrainFloor 170 = 119 ∧
    ¬((splitSlices (List.range 170)).1.toFinset.card = specTrainFloor 170) := by
  have h1 : (splitSlices (List.range 170)).1.toFinset.card = 118 := by decide
  have h2 : specTrainFloor 170 = 119 := by
    rw [specTrainFloor_eq]
  refine ⟨List.Perm.refl _, h1, h2, ?_⟩
  rw [h1, h2]
  omega

/-- Claim C2 (amended): for every run over at most 2^53 annotation records,
the split-index sets computed by main (lines 86-94) satisfy
train+val+test == total, with the train and val sets of the sizes
int(total*train_ratio) and int(total*val_ratio) that the program computes in
IEEE binary64 arithmetic (these can fall one below the exact
floor(total*ratio), e.g. 118 instead of 119 at total = 170), and all
remaining indices assigned to test. -/
theorem claim_C2 (n : ℕ) (indices : List ℕ) (_hn : n < 2 ^ 53)
    (hperm : indices.Perm (List.range n)) :
    (splitSlices indices).1.toFinset.card = nTrainOf n ∧
    (splitSlices indices).2.1.toFinset.card = nValOf n ∧
    (splitSlices indices).2.2.toFinset.card = n - nTrainOf n - nValOf n ∧
    (splitSlices indices).1.toFinset.card + (splitSlices indices).2.1.toFinset.card
      + (splitSlices indices).2.2.toFinset.card = n := by
  have hlen : indices.length = n := by
    rw [hperm.length_eq, List.length_range]
  have hnd : indices.Nodup := hperm.nodup_iff.mpr (List.nodup_range n)
  have h1le : nTrainOf n ≤ n := nTrainOf_le n
  have h2le : nTrainOf n + nValOf n ≤ n := split_le n
  unfold splitSlices
  rw [hlen]
  have c1 : (indices.take (nTrainOf n)).toFinset.card = nTrainOf n := by
    rw [List.toFinset_card_of_nodup (List.Sublist.nodup (List.take_sublist _ _) hnd)]
    rw [List.length_take, hlen]
    omega
  have c2 : ((indices.drop (nTrainOf n)).take (nValOf n)).toFinset.card = nValOf n := by
    rw [List.toFinset_card_of_nodup
      (List.Sublist.nodup ((List.take_sublist _ _).trans (List.drop_sublist _ _)) hnd)]
    rw [List.length_take, List.length_drop, hlen]
    omega
  have c3 : (indices.drop (nTrainOf n + nValOf n)).toFinset.card
      = n - nTrainOf n - nValOf n := by
    rw [List.toFinset_card_of_nodup (List.Sublist.nodup (List.drop_sublist _ _) hnd)]
    rw [List.length_drop, hlen]
    omega
  refine ⟨c1, c2, c3, ?_⟩
  rw [c1, c2, c3]
  omega

/-- Witness for claim C2 at a concrete shuffled index list of 10 records. -/
theorem claim_C2_witness :
    (10 : ℕ) < 2 ^ 53 ∧
    ([9, 3, 5, 0, 8, 1, 7, 2, 6, 4] : List ℕ).Perm (List.range 10) ∧
    ((splitSlices [9, 3, 5, 0, 8, 1, 7, 2, 6, 4]).1.toFinset.card = nTrainOf 10 ∧
     (splitSlices [9, 3, 5, 0, 8, 1, 7, 2, 6, 4]).2.1.toFinset.card = nValOf 10 ∧
     (splitSlices [9, 3, 5, 0, 8, 1, 7, 2, 6, 4]).2.2.toFinset.card
        = 10 - nTrainOf 10 - nValOf 10 ∧
     (splitSlices [9, 3, 5, 0, 8, 1, 7, 2, 6, 4]).1.toFinset.card
        + (splitSlices [9, 3, 5, 0, 8, 1, 7, 2, 6, 4]).2.1.toFinset.card
        + (splitSlices [9, 3, 5, 0, 8, 1, 7, 2, 6, 4]).2.2.toFinset.card = 10) :=
  ⟨by decide, by decide, claim_C2 10 [9, 3, 5, 0, 8, 1, 7, 2, 6, 4] (by decide) (by decide)⟩

/- ## Renamer claims -/

/-- Claim C3: for every input directory, start index, padding width, extension
list and sort key, the rename mapping is injective (no two source files map to
the same target path, i.e. the target list has no duplicates), its keys are
exactly the collected files, and computing it twice from the same inputs yields
the identical mapping. -/
theorem claim_C3 (contents : List FName) (mt : FName → ℕ) (rawExts : List FName)
    (byName : Bool) (start w : ℕ) :
    ((mappingOf contents mt rawExts byName start w).map Prod.snd).Nodup ∧
    (mappingOf contents mt rawExts byName start w).map Prod.fst
      = filesOf contents mt rawExts byName ∧
    mappingOf contents mt rawExts byName start w
      = mappingOf contents mt rawExts byName start w := by
  unfold mappingOf
  refine ⟨?_, buildMapping_fst _ start w, rfl⟩
  apply targets_nodup
  intro f hf
  have hfe : lowerName (sfx f) ∈ normalizeExts rawExts :=
    ((mem_collect_iff contents mt (normalizeExts rawExts) byName f).mp hf).2
  exact normalizeExts_shape rawExts _ hfe

/-- Claim C4: whenever a computed target path coincides with an existing file
that is not one of the source files, the run stops with exit code 4 and leaves
the filesystem unchanged.  In fact the collision list of main (line 82) is
provably always empty — any file named like a target has an allow-listed
suffix and is itself collected as a source — so the guarded branch can never
execute and the claimed property holds vacuously. -/
theorem claim_C4 (dirE dirD : Bool) (contents : List FName) (mt : FName → ℕ)
    (rawExts : List FName) (byName : Bool) (start w : ℕ) (dry force : Bool) :
    ensOfRun contents mt rawExts byName start w = [] ∧
    (ensOfRun contents mt rawExts byName start w ≠ [] →
      mainRun dirE dirD contents mt rawExts byName start w dry force
        = (.collisionError (ensOfRun contents mt rawExts byName start w), contents) ∧
      exitCode (.collisionError (ensOfRun contents mt rawExts byName start w)) = 4) := by
  refine ⟨ensOfRun_eq_nil contents mt rawExts byName start w, ?_⟩
  intro hne
  exact absurd (ensOfRun_eq_nil contents mt rawExts byName start w) hne

/-- Witness for claim C4 at a concrete directory. -/
theorem claim_C4_witness :
    ensOfRun ["000.jpg".toList, "b.jpg".toList] (fun _ => 0) [".jpg".toList] true 0 3 = [] ∧
    (ensOfRun ["000.jpg".toList, "b.jpg".toList] (fun _ => 0) [".jpg".toList] true 0 3 ≠ [] →
      mainRun true true ["000.jpg".toList, "b.jpg".toList] (fun _ => 0) [".jpg".toList]
          true 0 3 false false
        = (.collisionError (ensOfRun ["000.jpg".toList, "b.jpg".toList] (fun _ => 0)
            [".jpg".toList] true 0 3), ["000.jpg".toList, "b.jpg".toList]) ∧
      exitCode (.collisionError (ensOfRun ["000.jpg".toList, "b.jpg".toList] (fun _ => 0)
        [".jpg".toList] true 0 3)) = 4) :=
  claim_C4 true true ["000.jpg".toList, "b.jpg".toList] (fun _ => 0) [".jpg".toList]
    true 0 3 false false

/-- Claim C6: when the highest computed index start+len-1 exceeds 10^padding - 1
and force is not set, the run stops with exit code 3 and an unchanged
filesystem; with force set it proceeds to the dry-run report or the rename. -/
theorem claim_C6 (contents : List FName) (mt : FName → ℕ) (rawExts : List FName)
    (byName : Bool) (start w : ℕ) (dry : Bool)
    (hne : filesOf contents mt rawExts byName ≠ [])
    (hcap : start + (filesOf contents mt rawExts byName).length - 1 > 10 ^ w - 1) :
    mainRun true true contents mt rawExts byName start w dry false
      = (.capacityError, contents) ∧
    exitCode .capacityError = 3 ∧
    (mainRun true true contents mt rawExts byName start w dry true).1
      = (if dry then
          Outcome.dryRunReport (mappingOf contents mt rawExts byName start w)
            (filesOf contents mt rawExts byName).length
        else
          Outcome.renamed (mappingOf contents mt rawExts byName start w)
            (filesOf contents mt rawExts byName).length) := by
  have hF : (filesOf contents mt rawExts byName).isEmpty = false := by
    cases hfl : filesOf contents mt rawExts byName with
    | nil => exact absurd hfl hne
    | cons a l => rfl
  have hens := ensOfRun_eq_nil contents mt rawExts byName start w
  refine ⟨?_, rfl, ?_⟩
  · unfold mainRun
    simp [hF, hcap]
  · unfold mainRun
    simp [hF, hcap, hens]
    cases dry <;> simp

/-- Witness for claim C6: eleven files with padding 1 (capacity 0..9). -/
theorem claim_C6_witness :
    filesOf ["a0.jpg".toList, "a1.jpg".toList, "a2.jpg".toList, "a3.jpg".toList,
      "a4.jpg".toList, "a5.jpg".toList, "a6.jpg".toList, "a7.jpg".toList,
      "a8.jpg".toList, "a9.jpg".toList, "b.jpg".toList] (fun _ => 0) [".jpg".toList] true
      ≠ [] ∧
    mainRun true true ["a0.jpg".toList, "a1.jpg".toList, "a2.jpg".toList, "a3.jpg".toList,
      "a4.jpg".toList, "a5.jpg".toList, "a6.jpg".toList, "a7.jpg".toList,
      "a8.jpg".toList, "a9.jpg".toList, "b.jpg".toList] (fun _ => 0) [".jpg".toList]
      true 0 1 false false
      = (.capacityError, ["a0.jpg".toList, "a1.jpg".toList, "a2.jpg".toList,
          "a3.jpg".toList, "a4.jpg".toList, "a5.jpg".toList, "a6.jpg".toList,
          "a7.jpg".toList, "a8.jpg".toList, "a9.jpg".toList, "b.jpg".toList]) ∧
    (mainRun true true ["a0.jpg".toList, "a1.jpg".toList, "a2.jpg".toList, "a3.jpg".toList,
      "a4.jpg".toList, "a5.jpg".toList, "a6.jpg".toList, "a7.jpg".toList,
      "a8.jpg".toList, "a9.jpg".toList, "b.jpg".toList] (fun _ => 0) [".jpg".toList]
      true 0 1 false true).1
      = Outcome.renamed (mappingOf ["a0.jpg".toList, "a1.jpg".toList, "a2.jpg".toList,
          "a3.jpg".toList, "a4.jpg".toList, "a5.jpg".toList, "a6.jpg".toList,
          "a7.jpg".toList, "a8.jpg".toList, "a9.jpg".toList, "b.jpg".toList]
          (fun _ => 0) [".jpg".toList] true 0 1)
          (filesOf ["a0.jpg".toList, "a1.jpg".toList, "a2.jpg".toList, "a3.jpg".toList,
            "a4.jpg".toList, "a5.jpg".toList, "a6.jpg".toList, "a7.jpg".toList,
            "a8.jpg".toList, "a9.jpg".toList, "b.jpg".toList] (fun _ => 0)
            [".jpg".toList] true).length := by
  have h := claim_C6 ["a0.jpg".toList, "a1.jpg".toList, "a2.jpg".toList, "a3.jpg".toList,
    "a4.jpg".toList, "a5.jpg".toList, "a6.jpg".toList, "a7.jpg".toList,
    "a8.jpg".toList, "a9.jpg".toList, "b.jpg".toList] (fun _ => 0) [".jpg".toList]
    true 0 1 false (by decide) (by decide)
  exact ⟨by decide, h.1, h.2.2⟩

/-- Claim C9: a dry run that passes validation reports the full mapping and the
file count, performs no filesystem mutation, and terminates with exit code 0. -/
theorem claim_C9 (contents : List FName) (mt : FName → ℕ) (rawExts : List FName)
    (byName : Bool) (start w : ℕ) (force : Bool)
    (hne : filesOf contents mt rawExts byName ≠ [])
    (hval : (start + (filesOf contents mt rawExts byName).length - 1 > 10 ^ w - 1
      && !force) = false) :
    mainRun true true contents mt rawExts byName start w true force
      = (.dryRunReport (mappingOf contents mt rawExts byName start w)
          (filesOf contents mt rawExts byName).length, contents) ∧
    exitCode (.dryRunReport (mappingOf contents mt rawExts byName start w)
      (filesOf contents mt rawExts byName).length) = 0 := by
  have hF : (filesOf contents mt rawExts byName).isEmpty = false := by
    cases hfl : filesOf contents mt rawExts byName with
    | nil => exact absurd hfl hne
    | cons a l => rfl
  have hens := ensOfRun_eq_nil contents mt rawExts byName start w
  refine ⟨?_, rfl⟩
  unfold mainRun
  simp [hF, hval, hens]

/-- Witness for claim C9 at a concrete directory. -/
theorem claim_C9_witness :
    filesOf ["b.jpg".toList, "a.PNG".toList] (fun _ => 0) [".jpg".toList, ".png".toList]
      true ≠ [] ∧
    mainRun true true ["b.jpg".toList, "a.PNG".toList] (fun _ => 0)
      [".jpg".toList, ".png".toList] true 0 3 true false
      = (.dryRunReport (mappingOf ["b.jpg".toList, "a.PNG".toList] (fun _ => 0)
          [".jpg".toList, ".png".toList] true 0 3)
          (filesOf ["b.jpg".toList, "a.PNG".toList] (fun _ => 0)
            [".jpg".toList, ".png".toList] true).length,
        ["b.jpg".toList, "a.PNG".toList]) := by
  have h := claim_C9 ["b.jpg".toList, "a.PNG".toList] (fun _ => 0)
    [".jpg".toList, ".png".toList] true 0 3 false (by decide) (by decide)
  exact ⟨by decide, h.1⟩

/- ## Converter claims -/

/-- Claim C8: the class vocabulary is sorted in code-point lexicographic order
with no duplicate labels, and the class-id map assigns to the i-th vocabulary
entry exactly the id i (a dense range), while unknown labels have no id. -/
theorem claim_C8 (records : List AnnRecord) :
    List.Sorted (fun a b : FName => a = b ∨
      List.Lex (fun c d : Char => c.toNat < d.toNat) a b) (find_classes records) ∧
    (find_classes records).Nodup ∧
    (∀ i : Fin (find_classes records).length,
      classMapOf (find_classes records) ((find_classes records).get i) = some i) ∧
    (∀ s, s ∉ find_classes records → classMapOf (find_classes records) s = none) := by
  have hperm := List.perm_insertionSort (fun a b : FName => nameLeB a b = true)
    (allLabels records).dedup
  have hnd : (find_classes records).Nodup := by
    unfold find_classes
    exact (List.Perm.nodup_iff hperm).mpr (List.nodup_dedup _)
  refine ⟨?_, hnd, ?_, ?_⟩
  · have hs : List.Sorted (fun a b : FName => nameLeB a b = true) (find_classes records) :=
      List.sorted_insertionSort _ _
    exact List.Pairwise.imp (fun h => (nameLeB_iff_lex _ _).mp h) hs
  · intro i
    unfold classMapOf
    exact indexOf?_get_of_nodup _ hnd i.1 i.2
  · intro s hs
    exact indexOf?_eq_none_of_not_mem _ s hs

def c1Shape : LShape :=
  ⟨some ("rectangle".toList), some ("cat".toList), some [(0, 0), (2, 2)]⟩

def c1Map : FName → Option ℕ := fun s => if s = "cat".toList then some 0 else none

/-- Claim C1: for a rectangle shape with corners (x1,y1),(x2,y2) and image size
(W,H) with W,H > 0, the normalized box produced by convert_shape_to_yolo,
formatted at 6 decimals and then denormalized by W and H, reproduces the
rectangle's min/max corners up to the formatting rounding (at most
3/4·10^-6 of the image dimension). -/
theorem claim_C1 (sh : LShape) (x1 y1 x2 y2 : ℚ) (rest : List (ℚ × ℚ)) (W H : ℕ)
    (cmap : FName → Option ℕ) (lbl : FName) (cid : ℕ)
    (hty : sh.shape_type = some ("rectangle".toList))
    (hlbl : sh.label = some lbl)
    (hpts : sh.points = some ((x1, y1) :: (x2, y2) :: rest))
    (hW : 0 < W) (hH : 0 < H) (hcm : cmap lbl = some cid) :
    ∃ b, convert_shape_to_yolo sh W H cmap = .ok (some b) ∧
      |((formatBox b).xc - (formatBox b).bw / 2) * ((W : ℕ) : ℚ) - min x1 x2|
        ≤ 3 / 4000000 * ((W : ℕ) : ℚ) ∧
      |((formatBox b).xc + (formatBox b).bw / 2) * ((W : ℕ) : ℚ) - max x1 x2|
        ≤ 3 / 4000000 * ((W : ℕ) : ℚ) ∧
      |((formatBox b).yc - (formatBox b).bh / 2) * ((H : ℕ) : ℚ) - min y1 y2|
        ≤ 3 / 4000000 * ((H : ℕ) : ℚ) ∧
      |((formatBox b).yc + (formatBox b).bh / 2) * ((H : ℕ) : ℚ) - max y1 y2|
        ≤ 3 / 4000000 * ((H : ℕ) : ℚ) := by
  have hWQ : (0 : ℚ) < ((W : ℕ) : ℚ) := by exact_mod_cast hW
  have hHQ : (0 : ℚ) < ((H : ℕ) : ℚ) := by exact_mod_cast hH
  refine ⟨⟨cid, (min x1 x2 + max x1 x2) / 2 / ((W : ℕ) : ℚ),
    (min y1 y2 + max y1 y2) / 2 / ((H : ℕ) : ℚ),
    (max x1 x2 - min x1 x2) / ((W : ℕ) : ℚ),
    (max y1 y2 - min y1 y2) / ((H : ℕ) : ℚ)⟩, ?_, ?_, ?_, ?_, ?_⟩
  · simp only [convert_shape_to_yolo, hty, hlbl, hpts, hcm]
    simp
  · exact denorm_lo (min x1 x2) (max x1 x2) _ hWQ
  · exact denorm_hi (min x1 x2) (max x1 x2) _ hWQ
  · exact denorm_lo (min y1 y2) (max y1 y2) _ hHQ
  · exact denorm_hi (min y1 y2) (max y1 y2) _ hHQ

/-- Witness for claim C1 at a concrete rectangle (0,0)-(2,2) in a 10x10 image. -/
theorem claim_C1_witness :
    c1Shape.shape_type = some ("rectangle".toList) ∧
    c1Shape.label = some ("cat".toList) ∧
    c1Shape.points = some [((0 : ℚ), (0 : ℚ)), ((2 : ℚ), (2 : ℚ))] ∧
    (0 < 10) ∧ c1Map ("cat".toList) = some 0 ∧
    (∃ b, convert_shape_to_yolo c1Shape 10 10 c1Map = .ok (some b) ∧
      |((formatBox b).xc - (formatBox b).bw / 2) * ((10 : ℕ) : ℚ) - min 0 2|
        ≤ 3 / 4000000 * ((10 : ℕ) : ℚ) ∧
      |((formatBox b).xc + (formatBox b).bw / 2) * ((10 : ℕ) : ℚ) - max 0 2|
        ≤ 3 / 4000000 * ((10 : ℕ) : ℚ) ∧
      |((formatBox b).yc - (formatBox b).bh / 2) * ((10 : ℕ) : ℚ) - min 0 2|
        ≤ 3 / 4000000 * ((10 : ℕ) : ℚ) ∧
      |((formatBox b).yc + (formatBox b).bh / 2) * ((10 : ℕ) : ℚ) - max 0 2|
        ≤ 3 / 4000000 * ((10 : ℕ) : ℚ)) :=
  ⟨rfl, rfl, rfl, by decide, rfl,
    claim_C1 c1Shape 0 0 2 2 [] 10 10 c1Map ("cat".toList) 0 rfl rfl rfl
      (by decide) (by decide) rfl⟩

def c5Shape : LShape :=
  ⟨some ("rectangle".toList), some ("cat".toList), some [(0, 0), (2, 2), (1, 1)]⟩

/-- Counterexample to claim C5 as stated: a rectangle shape whose points list
has three entries still produces a normalized box line (the extra point is
ignored), so "a line is produced iff the shape is a rectangle with exactly two
corner points" is false. -/
theorem claim_C5_counterexample :
    ¬ ((∃ b, convert_shape_to_yolo c5Shape 10 10 c1Map = .ok (some b)) ↔
       (c5Shape.shape_type = some ("rectangle".toList) ∧
        (c5Shape.points.getD []).length = 2)) := by
  intro h
  have hL : ∃ b, convert_shape_to_yolo c5Shape 10 10 c1Map = .ok (some b) := ⟨_, rfl⟩
  have hR := (h.mp hL).2
  exact absurd hR (by decide)

/-- Claim C5 (amended): for a shape whose label is present and mapped in the
class map, a normalized box line is produced if and only if the shape's kind
is rectangle and its points list has at least two entries (the first two are
used, extras are ignored); shapes of any other kind are skipped silently
(no output line and no error). -/
theorem claim_C5_amended (sh : LShape) (W H : ℕ) (cmap : FName → Option ℕ) :
    (sh.shape_type ≠ some ("rectangle".toList) →
      convert_shape_to_yolo sh W H cmap = .ok none) ∧
    (∀ lbl, sh.label = some lbl → (cmap lbl).isSome = true →
      ((∃ b, convert_shape_to_yolo sh W H cmap = .ok (some b)) ↔
        (sh.shape_type = some ("rectangle".toList) ∧
          2 ≤ (sh.points.getD []).length))) := by
  constructor
  · intro hty
    unfold convert_shape_to_yolo
    rw [if_pos hty]
  · intro lbl hlbl hsome
    by_cases hty : sh.shape_type = some ("rectangle".toList)
    case neg =>
      constructor
      · rintro ⟨b, hb⟩
        unfold convert_shape_to_yolo at hb
        rw [if_pos hty] at hb
        exact absurd hb (by simp)
      · rintro ⟨h1, _⟩
        exact absurd h1 hty
    case pos =>
      obtain ⟨cid, hcm⟩ := Option.isSome_iff_exists.mp hsome
      have hfail : (sh.points.getD []).length < 2 →
          convert_shape_to_yolo sh W H cmap = .error .keyError ∨
          convert_shape_to_yolo sh W H cmap = .error .indexError := by
        intro hlt
        cases hpts : sh.points with
        | none =>
          left
          simp [convert_shape_to_yolo, hty, hlbl, hpts]
        | some pts =>
          rw [hpts] at hlt
          simp at hlt
          right
          cases pts with
          | nil => simp [convert_shape_to_yolo, hty, hlbl, hpts]
          | cons p ps =>
            cases ps with
            | nil =>
              obtain ⟨x1, y1⟩ := p
              simp [convert_shape_to_yolo, hty, hlbl, hpts]
            | cons q qs => simp at hlt; omega
      constructor
      · rintro ⟨b, hb⟩
        refine ⟨hty, ?_⟩
        by_contra hlt
        push_neg at hlt
        rcases hfail hlt with hc | hc <;> rw [hc] at hb <;> exact absurd hb (by simp)
      · rintro ⟨_, hlen⟩
        cases hpts : sh.points with
        | none => rw [hpts] at hlen; simp at hlen
        | some pts =>
          rw [hpts] at hlen
          simp at hlen
          obtain ⟨p, q, rest2, hpq⟩ : ∃ p q rest2, pts = p :: q :: rest2 := by
            cases pts with
            | nil => simp at hlen
            | cons p ps =>
              cases ps with
              | nil => simp at hlen
              | cons q qs => exact ⟨p, q, qs, rfl⟩
          obtain ⟨x1, y1⟩ := p
          obtain ⟨x2, y2⟩ := q
          subst hpq
          refine ⟨⟨cid, (min x1 x2 + max x1 x2) / 2 / ((W : ℕ) : ℚ),
            (min y1 y2 + max y1 y2) / 2 / ((H : ℕ) : ℚ),
            (max x1 x2 - min x1 x2) / ((W : ℕ) : ℚ),
            (max y1 y2 - min y1 y2) / ((H : ℕ) : ℚ)⟩, ?_⟩
          simp only [convert_shape_to_yolo, hty, hlbl, hpts, hcm]
          simp

/-- Witness for the amended claim C5 at a concrete polygon shape (skipped
silently) and the class map used throughout. -/
theorem claim_C5_witness :
    ((⟨some ("polygon".toList), some ("cat".toList), some [(0, 0)]⟩ : LShape).shape_type
        ≠ some ("rectangle".toList) →
      convert_shape_to_yolo ⟨some ("polygon".toList), some ("cat".toList), some [(0, 0)]⟩
        10 10 c1Map = .ok none) ∧
    (∀ lbl, (⟨some ("polygon".toList), some ("cat".toList), some [(0, 0)]⟩ : LShape).label
        = some lbl → (c1Map lbl).isSome = true →
      ((∃ b, convert_shape_to_yolo
          ⟨some ("polygon".toList), some ("cat".toList), some [(0, 0)]⟩ 10 10 c1Map
          = .ok (some b)) ↔
        ((⟨some ("polygon".toList), some ("cat".toList), some [(0, 0)]⟩ : LShape).shape_type
            = some ("rectangle".toList) ∧
          2 ≤ ((⟨some ("polygon".toList), some ("cat".toList),
            some [(0, 0)]⟩ : LShape).points.getD []).length))) :=
  claim_C5_amended ⟨some ("polygon".toList), some ("cat".toList), some [(0, 0)]⟩ 10 10 c1Map

/-- Claim C7: records whose image is missing or unreadable are skipped (skip
counter incremented, an error entry recorded) and the batch continues through
all records; the summary shows at most the first 10 error entries, reporting
any excess only as a count. -/
theorem claim_C7 (records : List AnnRecord) (fs : FName → ImgEntry)
    (cmap : FName → Option ℕ) (tIdx vIdx : List ℕ)
    (hok : ∀ r ∈ records, exOk (process_one r fs cmap) = true) :
    ∃ s, convertAll records fs cmap tIdx vIdx = .ok s ∧
      s.skipped = (records.filter (fun r => imgBad fs r)).length ∧
      s.errors = records.filterMap (recErrMsg fs cmap) ∧
      s.train + s.val + s.test + s.skipped = records.length ∧
      errorsShown s = s.errors.take 10 ∧
      (errorsShown s).length ≤ 10 ∧
      (10 < s.errors.length → errorsMore s = some (s.errors.length - 10)) ∧
      (s.errors.length ≤ 10 → errorsMore s = none) := by
  obtain ⟨s2, hrun, hsk, herr, hsum⟩ :=
    convertGo_spec fs cmap tIdx vIdx records 0 initStats hok
  refine ⟨s2, hrun, ?_, ?_, ?_, rfl, ?_, ?_, ?_⟩
  · simpa [initStats] using hsk
  · simpa [initStats] using herr
  · simpa [initStats] using hsum
  · simp [errorsShown, List.length_take]
  · intro h
    unfold errorsMore
    rw [if_pos h]
  · intro h
    unfold errorsMore
    rw [if_neg (by omega)]

/-- Witness for claim C7: twelve records whose images are all missing. -/
theorem claim_C7_witness :
    (∀ r ∈ List.replicate 12 (⟨"r.json".toList, some ("x.jpg".toList), []⟩ : AnnRecord),
      exOk (process_one r (fun _ => ImgEntry.absent) (fun _ => none)) = true) ∧
    (∃ s, convertAll (List.replicate 12 ⟨"r.json".toList, some ("x.jpg".toList), []⟩)
        (fun _ => ImgEntry.absent) (fun _ => none) [0] [1] = .ok s ∧
      s.skipped = ((List.replicate 12
          (⟨"r.json".toList, some ("x.jpg".toList), []⟩ : AnnRecord)).filter
          (fun r => imgBad (fun _ => ImgEntry.absent) r)).length ∧
      s.errors = (List.replicate 12
          (⟨"r.json".toList, some ("x.jpg".toList), []⟩ : AnnRecord)).filterMap
          (recErrMsg (fun _ => ImgEntry.absent) (fun _ => none)) ∧
      s.train + s.val + s.test + s.skipped = (List.replicate 12
          (⟨"r.json".toList, some ("x.jpg".toList), []⟩ : AnnRecord)).length ∧
      errorsShown s = s.errors.take 10 ∧
      (errorsShown s).length ≤ 10 ∧
      (10 < s.errors.length → errorsMore s = some (s.errors.length - 10)) ∧
      (s.errors.length ≤ 10 → errorsMore s = none)) :=
  ⟨by decide,
    claim_C7 (List.replicate 12 ⟨"r.json".toList, some ("x.jpg".toList), []⟩)
      (fun _ => ImgEntry.absent) (fun _ => none) [0] [1] (by decide)⟩

def c10Good : AnnRecord :=
  ⟨"g.json".toList, some ("g.jpg".toList),
    [⟨some ("polygon".toList), some ("cat".toList), some [(0, 0), (1, 1), (2, 0)]⟩]⟩

def c10BadPts : AnnRecord :=
  ⟨"bad.json".toList, some ("b.jpg".toList),
    [⟨some ("rectangle".toList), some ("cat".toList), some [(0, 0)]⟩]⟩

def c10BadLbl : AnnRecord :=
  ⟨"bad2.json".toList, some ("b.jpg".toList),
    [⟨some ("rectangle".toList), none, some [(0, 0), (1, 1)]⟩]⟩

def c10Missing : AnnRecord := ⟨"m.json".toList, some ("m.jpg".toList), []⟩

def c10FS : FName → ImgEntry := fun p =>
  if p = "cat_image/g.jpg".toList ∨ p = "cat_image/b.jpg".toList then
    ImgEntry.image 10 10
  else ImgEntry.absent

/-- Claim C10: a record containing a rectangle shape with fewer than two points
(or one lacking a label key) makes the Converter raise an unhandled exception
that aborts the whole batch, while a record whose image is merely missing is
recovered per-record: the try/except of process_one covers only the image
resolution, not malformed shapes. -/
theorem claim_C10 :
    mainConvert [c10Good, c10BadPts] c10FS [0, 1] = .error .indexError ∧
    mainConvert [c10Good, c10BadLbl] c10FS [0, 1] = .error .keyError ∧
    mainConvert [c10Good, c10Missing] c10FS [0, 1]
      = .ok ⟨1, 0, 0, 1, ["m.json: Image not found: cat_image/m.jpg".toList]⟩ := by
  have ht : nTrainOf 2 = 1 := by decide
  have hv : nValOf 2 = 0 := by decide
  have hsplit : splitSlices [0, 1] = ([0], [], [1]) := by
    unfold splitSlices
    norm_num [ht, hv]
  refine ⟨?_, ?_, ?_⟩
  · unfold mainConvert
    rw [hsplit]
    decide
  · unfold mainConvert
    rw [hsplit]
    decide
  · unfold mainConvert
    rw [hsplit]
    decide
